import Mathlib

/-!
Verification of the albumseq_cli sequencing engine against its specification.

The Rust source is embedded shallowly:
* `Track`, `Medium`, tracklists and the program context become Lean structures;
  Rust `f64` durations are modelled as exact rationals (`ℚ`), and Rust strings
  as their byte sequences (`List ℕ`).
* `split_tracklist_by_side` (src/commands.rs, duplicated in src/main.rs) is
  translated loop-state by loop-state: `splitGo` carries the `current_side`,
  `current_duration` and `sides` accumulators, the break test after each
  iteration, and the final push of a non-empty `current_side`.
* The albumseq library functions used by the CLI (`Medium::fits`,
  `score_tracklist`, `TracklistPermutations`) are not part of this repository's
  sources; feasibility is modelled from the spec (`fits`), while the scorer and
  the enumeration order enter the ranking pipeline as parameters.
-/

namespace AlbumSeq

/-! ### Data model -/

/-- A Rust `String`, viewed as its sequence of bytes. -/
abbrev Name := List Nat

/-- `Track { title, duration }`; `duration` is in minutes (`f64` modelled as `ℚ`). -/
structure Track where
  title : Name
  duration : ℚ
  deriving DecidableEq, Repr

/-- `Tracklist(pub Vec<Track>)`: an ordering is just the list of its tracks. -/
abbrev Tracklist := List Track

/-- `Medium { sides, max_duration_per_side, name }`. -/
structure Medium where
  sides : Nat
  max_duration_per_side : ℚ
  name : Name
  deriving DecidableEq, Repr

/-! ### The Side Allocator -/

/-- The loop epilogue of `split_tracklist_by_side`:
`if !current_side.is_empty() { sides.push(current_side); }`. -/
def closeSides (cur : List Track) (sides : List (List Track)) : List (List Track) :=
  if cur.isEmpty then sides else sides ++ [cur]

/-- The loop of `split_tracklist_by_side` (src/commands.rs lines 78-95).
Arguments mirror the loop state: remaining tracks, `current_side`,
`current_duration`, `sides`.  Each iteration either appends the track to the
current side or closes it and starts a new side with the track; afterwards the
loop breaks when `sides.len() == medium.sides`, and on exit (break or end of
list) the non-empty current side is pushed. -/
def splitGo (maxd : ℚ) (nSides : Nat) :
    List Track → List Track → ℚ → List (List Track) → List (List Track)
  | [], cur, _, sides => closeSides cur sides
  | t :: ts, cur, d, sides =>
    if d + t.duration ≤ maxd then
      if sides.length = nSides then closeSides (cur ++ [t]) sides
      else splitGo maxd nSides ts (cur ++ [t]) (d + t.duration) sides
    else
      if (sides ++ [cur]).length = nSides then closeSides [t] (sides ++ [cur])
      else splitGo maxd nSides ts [t] t.duration (sides ++ [cur])

/-- `split_tracklist_by_side` (src/commands.rs lines 70-98, src/main.rs 231-259). -/
def split_tracklist_by_side (tracklist : Tracklist) (medium : Medium) :
    List (List Track) :=
  splitGo medium.max_duration_per_side medium.sides tracklist [] 0 []

/-- Total duration of a list of tracks. -/
def sumDuration (ts : List Track) : ℚ :=
  (ts.map Track.duration).sum

/-- Modelled from the spec: the feasibility loop of the albumseq library's
`Medium::fits`, which is not under src/ (the CLI only calls it).  Spec §4.2:
tracks are processed in order; a track is appended to the current side when it
fits, otherwise it opens a new side — allowed only when the new side index is
still below `sides` and the track alone fits on a side (a track whose duration
exceeds `max_duration_per_side` can never be placed).  Arguments: remaining
tracks, current side index, accumulated duration of the current side. -/
def fitsGo (maxd : ℚ) (nSides : Nat) : List Track → Nat → ℚ → Bool
  | [], _, _ => true
  | t :: ts, sideIdx, d =>
    if d + t.duration ≤ maxd then fitsGo maxd nSides ts sideIdx (d + t.duration)
    else if sideIdx + 1 < nSides ∧ t.duration ≤ maxd then
      fitsGo maxd nSides ts (sideIdx + 1) t.duration
    else false

/-- Modelled from the spec: `Medium::fits` of the albumseq library (not under
src/).  An empty tracklist is trivially feasible with zero sides used; a
non-empty one needs at least one side and a successful greedy pass. -/
def fits (m : Medium) (tl : Tracklist) : Bool :=
  match tl with
  | [] => true
  | _ :: _ => decide (1 ≤ m.sides) && fitsGo m.max_duration_per_side m.sides tl 0 0

/-- A track with an empty title, used for concrete instances. -/
def exTrack (d : ℚ) : Track := ⟨[], d⟩

/-- A two-sided medium with 5 minutes per side. -/
def exMedium2 : Medium := ⟨2, 5, []⟩

/-! ### The ranking pipeline of `handle_propose` (src/commands.rs lines 236-272)

`TracklistPermutations` and `score_tracklist` are albumseq library code, not
under src/: the enumeration enters as the list `perms` of orderings in the
engine's enumeration order, and the scorer as the function `score` (standing
for `score_tracklist · constraints medium`).  Feasibility is the spec-modelled
`fits` above.  Rust's `sort_by` is documented to be a stable sort; a stable
sort by a total preorder is uniquely determined, so it is modelled by
`List.mergeSort`, which is also stable. -/

/-- `min_score.map_or(true, |min| *score >= min)`. -/
def minScoreOk (minScore : Option Nat) (s : Nat) : Bool :=
  match minScore with
  | none => true
  | some lo => decide (lo ≤ s)

/-- The `perms.map(...)` step: pair each enumerated ordering with its score. -/
def proposeScored (score : Tracklist → Nat) (perms : List Tracklist) :
    List (Nat × Tracklist) :=
  perms.map fun tl => (score tl, tl)

/-- The `.filter(|(score, tl)| medium.fits(tl) && min_score.map_or(...))` step. -/
def proposeFiltered (score : Tracklist → Nat) (m : Medium) (minScore : Option Nat)
    (perms : List Tracklist) : List (Nat × Tracklist) :=
  (proposeScored score perms).filter fun p => fits m p.2 && minScoreOk minScore p.1

/-- The comparator of `scored_perms.sort_by(|a, b| b.0.cmp(&a.0))`: `a` may
come before `b` exactly when `b`'s score is at most `a`'s. -/
def scoreDescLE (a b : Nat × Tracklist) : Bool := decide (b.1 ≤ a.1)

/-- The `sort_by` step (stable sort, descending by score). -/
def proposeSorted (score : Tracklist → Nat) (m : Medium) (minScore : Option Nat)
    (perms : List Tracklist) : List (Nat × Tracklist) :=
  (proposeFiltered score m minScore perms).mergeSort scoreDescLE

/-- The `.into_iter().take(*count)` step: the final proposed results. -/
def proposeResults (score : Tracklist → Nat) (m : Medium) (minScore : Option Nat)
    (perms : List Tracklist) (count : Nat) : List (Nat × Tracklist) :=
  (proposeSorted score m minScore perms).take count

/-! ### The persistent program context (src/context.rs) -/

/-- `NamedSerTracklist { name, tracks }`. -/
structure NamedTracklist where
  name : Name
  tracks : List Track
  deriving DecidableEq, Repr

/-- `SerMedium { name, sides, max_duration_per_side }`. -/
structure MediumEntry where
  name : Name
  sides : Nat
  max_duration_per_side : ℚ
  deriving DecidableEq, Repr

/-- `SerConstraintKind`. -/
inductive ConstraintKind where
  | AtPosition : Name → Nat → ConstraintKind
  | Adjacent : Name → Name → ConstraintKind
  | OnSameSide : Name → Name → ConstraintKind
  deriving DecidableEq, Repr

/-- `SerConstraint { kind, weight }`. -/
structure Constraint where
  kind : ConstraintKind
  weight : Nat
  deriving DecidableEq, Repr

/-- `ProgramContext { tracklists, mediums, constraints }`. -/
structure ProgramContext where
  tracklists : List NamedTracklist
  mediums : List MediumEntry
  constraints : List Constraint
  deriving DecidableEq, Repr

/-- `handle_remove_constraint` (src/commands.rs lines 143-163): look the index
up in a clone of the constraints; on a hit remove it with `Vec::remove`
(`List.eraseIdx`) and return true, otherwise report out-of-range and return
false with the context untouched. -/
def handle_remove_constraint (ctx : ProgramContext) (index : Nat) :
    Bool × ProgramContext :=
  match ctx.constraints[index]? with
  | some _ => (true, { ctx with constraints := ctx.constraints.eraseIdx index })
  | none => (false, ctx)

/-- A sample constraint for concrete instances. -/
def exConstraint (w : Nat) : Constraint := ⟨ConstraintKind.AtPosition [] 0, w⟩

/-- A sample context with two constraints. -/
def exCtx : ProgramContext := ⟨[], [], [exConstraint 1, exConstraint 2]⟩

/-! ### ASCII-case-insensitive name resolution (src/context.rs, src/commands.rs) -/

/-- `u8::to_ascii_lowercase`: bytes `b'A'..=b'Z'` are shifted into lowercase. -/
def toAsciiLowercase (b : Nat) : Nat :=
  if 65 ≤ b ∧ b ≤ 90 then b + 32 else b

/-- `str::eq_ignore_ascii_case`: same length and pointwise byte equality up to
ASCII case. -/
def eqIgnoreAsciiCase : Name → Name → Bool
  | [], [] => true
  | x :: xs, y :: ys =>
      decide (toAsciiLowercase x = toAsciiLowercase y) && eqIgnoreAsciiCase xs ys
  | _, _ => false

/-- The tracklist lookup of `handle_propose` (src/commands.rs lines 206-210):
first stored tracklist whose name matches ignoring ASCII case. -/
def findTracklist (ctx : ProgramContext) (tname : Name) : Option NamedTracklist :=
  ctx.tracklists.find? fun tl => eqIgnoreAsciiCase tl.name tname

/-- The medium lookup of `handle_propose` (src/commands.rs lines 219-223). -/
def findMedium (ctx : ProgramContext) (mname : Name) : Option MediumEntry :=
  ctx.mediums.find? fun m0 => eqIgnoreAsciiCase m0.name mname

/-- The `iter_mut().find(...)`-and-replace-else-push shape shared by
`add_or_replace_tracklist` and `add_or_replace_medium` (src/context.rs lines
181-224): replace the first entry matching `p` in place, or append. -/
def addOrReplaceBy {α : Type} (p : α → Bool) (entry : α) : List α → List α
  | [] => [entry]
  | x :: xs => if p x then entry :: xs else x :: addOrReplaceBy p entry xs

/-- `ProgramContext::add_or_replace_tracklist` (src/context.rs lines 181-198). -/
def add_or_replace_tracklist (ctx : ProgramContext) (tname : Name)
    (tracks : List Track) : ProgramContext :=
  { ctx with tracklists :=
      (addOrReplaceBy (fun tl => eqIgnoreAsciiCase tl.name tname)
        (NamedTracklist.mk tname tracks) ctx.tracklists) }

/-- `ProgramContext::add_or_replace_medium` (src/context.rs lines 201-224). -/
def add_or_replace_medium (ctx : ProgramContext) (mname : Name) (nsides : Nat)
    (maxd : ℚ) : ProgramContext :=
  { ctx with mediums :=
      (addOrReplaceBy (fun m0 => eqIgnoreAsciiCase m0.name mname)
        (MediumEntry.mk mname nsides maxd) ctx.mediums) }

/-- A stored tracklist named "A" (byte 65). -/
def exNamed : NamedTracklist := ⟨[65], []⟩

/-- A stored medium named "A" (byte 65). -/
def exMedEntry : MediumEntry := ⟨[65], 2, 5⟩

/-- A context holding `exNamed` and `exMedEntry`. -/
def exCtx9 : ProgramContext := ⟨[exNamed], [exMedEntry], []⟩

/-! ### Structural lemmas about the side-splitting loop -/

lemma closeSides_flatten (cur : List Track) (sides : List (List Track)) :
    (closeSides cur sides).flatten = sides.flatten ++ cur := by
  unfold closeSides
  split
  · rename_i h
    simp_all [List.isEmpty_iff]
  · simp

lemma closeSides_length (cur : List Track) (sides : List (List Track)) :
    (closeSides cur sides).length ≤ sides.length + 1 := by
  unfold closeSides
  split <;> simp

lemma mem_closeSides {s cur : List Track} {sides : List (List Track)}
    (h : s ∈ closeSides cur sides) : s ∈ sides ∨ s = cur := by
  unfold closeSides at h
  split at h
  · exact Or.inl h
  · rcases List.mem_append.mp h with h' | h'
    · exact Or.inl h'
    · exact Or.inr (by simpa using h')

lemma splitGo_length_le (maxd : ℚ) (nSides : Nat) :
    ∀ (ts cur : List Track) (d : ℚ) (sides : List (List Track)),
      sides.length < nSides →
      (splitGo maxd nSides ts cur d sides).length ≤ nSides + 1 := by
  intro ts
  induction ts with
  | nil =>
    intro cur d sides h
    exact le_trans (closeSides_length cur sides) (by omega)
  | cons t ts ih =>
    intro cur d sides h
    simp only [splitGo]
    split
    · split
      · exact le_trans (closeSides_length _ _) (by omega)
      · exact ih _ _ _ h
    · split
      · rename_i hlen
        exact le_trans (closeSides_length _ _) (by simp_all)
      · rename_i hlen
        refine ih _ _ _ ?_
        simp only [List.length_append, List.length_cons, List.length_nil] at hlen ⊢
        omega

lemma splitGo_flatten_take (maxd : ℚ) (nSides : Nat) :
    ∀ (ts cur : List Track) (d : ℚ) (sides : List (List Track)),
      ∃ n, (splitGo maxd nSides ts cur d sides).flatten
        = sides.flatten ++ cur ++ ts.take n := by
  intro ts
  induction ts with
  | nil =>
    intro cur d sides
    exact ⟨0, by simp [splitGo, closeSides_flatten]⟩
  | cons t ts ih =>
    intro cur d sides
    simp only [splitGo]
    split
    · split
      · exact ⟨1, by simp [closeSides_flatten]⟩
      · obtain ⟨n, hn⟩ := ih (cur ++ [t]) (d + t.duration) sides
        exact ⟨n + 1, by simp [hn]⟩
    · split
      · exact ⟨1, by simp [closeSides_flatten]⟩
      · obtain ⟨n, hn⟩ := ih [t] t.duration (sides ++ [cur])
        exact ⟨n + 1, by simp [hn]⟩

lemma sumDuration_append_single (cur : List Track) (t : Track) :
    sumDuration (cur ++ [t]) = sumDuration cur + t.duration := by
  simp [sumDuration]

lemma splitGo_capacity (maxd : ℚ) (nSides : Nat) :
    ∀ (ts cur : List Track) (d : ℚ) (sides : List (List Track)),
      d = sumDuration cur →
      (d ≤ maxd ∨ ∃ t, cur = [t] ∧ maxd < t.duration) →
      (∀ s ∈ sides, sumDuration s ≤ maxd ∨ ∃ t, s = [t] ∧ maxd < t.duration) →
      ∀ s ∈ splitGo maxd nSides ts cur d sides,
        sumDuration s ≤ maxd ∨ ∃ t, s = [t] ∧ maxd < t.duration := by
  intro ts
  induction ts with
  | nil =>
    intro cur d sides hd hcur hsides s hs
    rcases mem_closeSides hs with h | h
    · exact hsides s h
    · subst h
      rcases hcur with h | h
      · exact Or.inl (hd ▸ h)
      · exact Or.inr h
  | cons t ts ih =>
    intro cur d sides hd hcur hsides s hs
    simp only [splitGo] at hs
    split at hs
    · rename_i hfit
      split at hs
      · rcases mem_closeSides hs with h | h
        · exact hsides s h
        · subst h
          exact Or.inl (by rw [sumDuration_append_single, ← hd]; exact hfit)
      · exact ih (cur ++ [t]) (d + t.duration) sides
          (by rw [sumDuration_append_single, hd])
          (Or.inl hfit) hsides s hs
    · rename_i hfit
      have hcurP : sumDuration cur ≤ maxd ∨ ∃ u, cur = [u] ∧ maxd < u.duration := by
        rcases hcur with h | h
        · exact Or.inl (hd ▸ h)
        · exact Or.inr h
      have hsides' : ∀ s ∈ sides ++ [cur],
          sumDuration s ≤ maxd ∨ ∃ u, s = [u] ∧ maxd < u.duration := by
        intro s hs'
        rcases List.mem_append.mp hs' with h | h
        · exact hsides s h
        · simp only [List.mem_singleton] at h
          subst h
          exact hcurP
      have hnew : t.duration ≤ maxd ∨ ∃ u, ([t] : List Track) = [u] ∧ maxd < u.duration := by
        rcases le_or_lt t.duration maxd with h | h
        · exact Or.inl h
        · exact Or.inr ⟨t, rfl, h⟩
      split at hs
      · rcases mem_closeSides hs with h | h
        · exact hsides' s h
        · subst h
          rcases hnew with h | h
          · exact Or.inl (by simpa [sumDuration] using h)
          · exact Or.inr h
      · exact ih [t] t.duration (sides ++ [cur])
          (by simp [sumDuration]) hnew hsides' s hs

lemma splitGo_fits_flatten (maxd : ℚ) (nSides : Nat) :
    ∀ (ts : List Track) (sideIdx : Nat) (curL : List Track) (d : ℚ)
      (sides : List (List Track)),
      fitsGo maxd nSides ts sideIdx d = true →
      sides.length = sideIdx → sideIdx < nSides →
      (splitGo maxd nSides ts curL d sides).flatten = sides.flatten ++ curL ++ ts := by
  intro ts
  induction ts with
  | nil =>
    intro sideIdx curL d sides _ _ _
    simp [splitGo, closeSides_flatten]
  | cons t ts ih =>
    intro sideIdx curL d sides hfits hlen hlt
    simp only [fitsGo] at hfits
    simp only [splitGo]
    split
    · rename_i hfit
      rw [if_pos hfit] at hfits
      rw [if_neg (show ¬ sides.length = nSides by omega)]
      rw [ih sideIdx (curL ++ [t]) (d + t.duration) sides hfits hlen hlt]
      simp
    · rename_i hfit
      rw [if_neg hfit] at hfits
      by_cases hcond : sideIdx + 1 < nSides ∧ t.duration ≤ maxd
      · rw [if_pos hcond] at hfits
        rw [if_neg (show ¬ (sides ++ [curL]).length = nSides by simp [hlen]; omega)]
        rw [ih (sideIdx + 1) [t] t.duration (sides ++ [curL]) hfits (by simp [hlen])
          hcond.1]
        simp
      · rw [if_neg hcond] at hfits
        exact absurd hfits (by simp)

/-! ### Lemmas about the ranking pipeline -/

lemma scoreDescLE_trans (a b c : Nat × Tracklist) :
    scoreDescLE a b = true → scoreDescLE b c = true → scoreDescLE a c = true := by
  simp only [scoreDescLE, decide_eq_true_eq]
  omega

lemma scoreDescLE_total (a b : Nat × Tracklist) :
    (scoreDescLE a b || scoreDescLE b a) = true := by
  simp only [scoreDescLE, Bool.or_eq_true, decide_eq_true_eq]
  omega

/-! ### Lemmas about name resolution -/

lemma eqIgnoreAsciiCase_iff (a b : Name) :
    eqIgnoreAsciiCase a b = true ↔
      a.map toAsciiLowercase = b.map toAsciiLowercase := by
  induction a generalizing b with
  | nil => cases b <;> simp [eqIgnoreAsciiCase]
  | cons x xs ih =>
    cases b with
    | nil => simp [eqIgnoreAsciiCase]
    | cons y ys => simp [eqIgnoreAsciiCase, ih]

lemma eqIgnoreAsciiCase_eq_false_iff (a b : Name) :
    eqIgnoreAsciiCase a b = false ↔
      a.map toAsciiLowercase ≠ b.map toAsciiLowercase := by
  rw [← Bool.not_eq_true, not_iff_not]
  exact eqIgnoreAsciiCase_iff a b

lemma addOrReplaceBy_append {α : Type} (p : α → Bool) (entry : α) :
    ∀ l : List α, (∀ x ∈ l, p x = false) → addOrReplaceBy p entry l = l ++ [entry] := by
  intro l
  induction l with
  | nil => intro _; rfl
  | cons x xs ih =>
    intro h
    simp only [addOrReplaceBy]
    rw [if_neg (by simp [h x (by simp)])]
    rw [ih fun y hy => h y (by simp [hy])]
    simp

lemma addOrReplaceBy_replace {α : Type} (p : α → Bool) (entry : α) :
    ∀ (pre : List α) (x : α) (post : List α), (∀ y ∈ pre, p y = false) →
      p x = true → addOrReplaceBy p entry (pre ++ x :: post) = pre ++ entry :: post := by
  intro pre
  induction pre with
  | nil =>
    intro x post _ hx
    simp [addOrReplaceBy, hx]
  | cons y ys ih =>
    intro x post h hx
    simp only [List.cons_append, addOrReplaceBy]
    rw [if_neg (by simp [h y (by simp)])]
    exact congrArg (fun l => y :: l) (ih x post (fun z hz => h z (by simp [hz])) hx)

lemma find?_first {α : Type} (p : α → Bool) :
    ∀ (pre : List α) (x : α) (post : List α), (∀ y ∈ pre, p y = false) →
      p x = true → (pre ++ x :: post).find? p = some x := by
  intro pre
  induction pre with
  | nil =>
    intro x post _ hx
    exact List.find?_cons_of_pos _ hx
  | cons y ys ih =>
    intro x post h hx
    rw [List.cons_append, List.find?_cons_of_neg _ (by simp [h y (by simp)])]
    exact ih x post (fun z hz => h z (by simp [hz])) hx

/-! ### Claims about the Side Allocator -/

/-- C1 counterexample: with three 5-minute tracks on a 2-sided medium of
5 minutes per side, the returned partition has 3 sides — more than `sides` —
and the track that could not start a legal new side is nevertheless placed
(the concatenation of the partition is the whole ordering). -/
theorem split_exceeds_side_count_cex :
    ¬ ((split_tracklist_by_side [exTrack 5, exTrack 5, exTrack 5] exMedium2).length
        ≤ exMedium2.sides) ∧
    (split_tracklist_by_side [exTrack 5, exTrack 5, exTrack 5] exMedium2).flatten
      = [exTrack 5, exTrack 5, exTrack 5] := by
  constructor
  · norm_num [split_tracklist_by_side, splitGo, closeSides, exTrack, exMedium2]
  · norm_num [split_tracklist_by_side, splitGo, closeSides, exTrack, exMedium2]

/-- C1 (amended): for a medium with at least one side, the partition returned
by `split_tracklist_by_side` uses at most `sides + 1` sides (not `sides`: the
track that exhausts the side count is placed into one extra side before the
loop breaks), and the placed tracks form a prefix of the ordering, so all
tracks after the break are left unplaced. -/
theorem split_sides_bound (tl : Tracklist) (m : Medium) (h : 1 ≤ m.sides) :
    (split_tracklist_by_side tl m).length ≤ m.sides + 1 ∧
    (split_tracklist_by_side tl m).flatten <+: tl := by
  constructor
  · exact splitGo_length_le _ _ tl [] 0 [] (by simpa using h)
  · obtain ⟨n, hn⟩ := splitGo_flatten_take m.max_duration_per_side m.sides tl [] 0 []
    rw [split_tracklist_by_side, hn]
    simpa using List.take_prefix n tl

/-- Witness for `split_sides_bound` at a concrete medium and tracklist. -/
theorem split_sides_bound_witness :
    (split_tracklist_by_side [exTrack 5, exTrack 5, exTrack 5] exMedium2).length
        ≤ exMedium2.sides + 1 ∧
    (split_tracklist_by_side [exTrack 5, exTrack 5, exTrack 5] exMedium2).flatten
      <+: [exTrack 5, exTrack 5, exTrack 5] :=
  split_sides_bound [exTrack 5, exTrack 5, exTrack 5] exMedium2 (by norm_num [exMedium2])

/-- C2 counterexample: a single 6-minute track on a medium with 5 minutes per
side is placed anyway — the partition contains the side `[exTrack 6]`, whose
total duration 6 exceeds `max_duration_per_side = 5`. -/
theorem split_capacity_cex :
    [exTrack 6] ∈ split_tracklist_by_side [exTrack 6] exMedium2 ∧
    exMedium2.max_duration_per_side < sumDuration [exTrack 6] := by
  constructor
  · norm_num [split_tracklist_by_side, splitGo, closeSides, exTrack, exMedium2]
  · norm_num [sumDuration, exTrack, exMedium2]

/-- C2 (amended): for a medium with non-negative per-side capacity, every side
of the returned partition either keeps its total duration within
`max_duration_per_side` or is a side holding exactly one track whose duration
alone exceeds `max_duration_per_side`; such an oversize track is placed alone
on a side rather than never placed. -/
theorem split_capacity_or_oversize (tl : Tracklist) (m : Medium)
    (hm : 0 ≤ m.max_duration_per_side) :
    ∀ side ∈ split_tracklist_by_side tl m,
      sumDuration side ≤ m.max_duration_per_side ∨
        ∃ t, side = [t] ∧ m.max_duration_per_side < t.duration :=
  splitGo_capacity m.max_duration_per_side m.sides tl [] 0 []
    (by simp [sumDuration]) (Or.inl hm) (by simp)

/-- Witness for `split_capacity_or_oversize` at the oversize-track instance. -/
theorem split_capacity_or_oversize_witness :
    [exTrack 6] ∈ split_tracklist_by_side [exTrack 6] exMedium2 ∧
    (sumDuration [exTrack 6] ≤ exMedium2.max_duration_per_side ∨
      ∃ t, ([exTrack 6] : List Track) = [t] ∧
        exMedium2.max_duration_per_side < t.duration) := by
  refine ⟨?_, split_capacity_or_oversize [exTrack 6] exMedium2
    (by norm_num [exMedium2]) [exTrack 6] ?_⟩ <;>
    norm_num [split_tracklist_by_side, splitGo, closeSides, exTrack, exMedium2]

/-- C3: when the greedy allocation is feasible (`fits`, modelled from the
spec), the partition returned by `split_tracklist_by_side` places every track,
and concatenating its sides in order reproduces the ordering exactly. -/
theorem split_feasible_flatten (tl : Tracklist) (m : Medium)
    (h : fits m tl = true) :
    (split_tracklist_by_side tl m).flatten = tl := by
  cases tl with
  | nil => rfl
  | cons t ts =>
    simp only [fits, Bool.and_eq_true, decide_eq_true_eq] at h
    have := splitGo_fits_flatten m.max_duration_per_side m.sides (t :: ts) 0 [] 0 []
      h.2 rfl (by omega)
    simpa [split_tracklist_by_side] using this

/-- Witness for `split_feasible_flatten` at a concrete feasible ordering. -/
theorem split_feasible_flatten_witness :
    fits exMedium2 [exTrack 3, exTrack 2, exTrack 4] = true ∧
    (split_tracklist_by_side [exTrack 3, exTrack 2, exTrack 4] exMedium2).flatten
      = [exTrack 3, exTrack 2, exTrack 4] :=
  ⟨by norm_num [fits, fitsGo, exTrack, exMedium2],
   split_feasible_flatten [exTrack 3, exTrack 2, exTrack 4] exMedium2
     (by norm_num [fits, fitsGo, exTrack, exMedium2])⟩

/-- C7: for every medium, the empty tracklist splits into the empty partition
(zero sides used) and is feasible (`fits`, modelled from the spec). -/
theorem split_empty_tracklist (m : Medium) :
    split_tracklist_by_side [] m = [] ∧ fits m [] = true :=
  ⟨rfl, rfl⟩

/-! ### Claims about the ranking pipeline -/

/-- C4: every result returned by the ranking pipeline passed the feasibility
filter (`fits`, modelled from the spec) and, when a minimum score is supplied,
meets it; no infeasible or below-threshold entry survives into the top K. -/
theorem propose_feasible_and_threshold (score : Tracklist → Nat) (m : Medium)
    (minScore : Option Nat) (perms : List Tracklist) (count : Nat)
    (p : Nat × Tracklist)
    (hp : p ∈ proposeResults score m minScore perms count) :
    fits m p.2 = true ∧ ∀ n, minScore = some n → n ≤ p.1 := by
  have hs : p ∈ proposeSorted score m minScore perms :=
    List.take_subset count _ hp
  have hf : p ∈ proposeFiltered score m minScore perms := by
    simpa [proposeSorted] using hs
  simp only [proposeFiltered] at hf
  have hpred := (List.mem_filter.mp hf).2
  simp only [Bool.and_eq_true] at hpred
  refine ⟨hpred.1, ?_⟩
  intro n hn
  have := hpred.2
  rw [hn] at this
  simpa [minScoreOk] using this

/-- Witness for `propose_feasible_and_threshold` at a concrete pipeline run. -/
theorem propose_feasible_and_threshold_witness :
    fits exMedium2 ((7, ([exTrack 3] : Tracklist)).2) = true ∧
    ∀ n, (some 5 : Option Nat) = some n → n ≤ (7, ([exTrack 3] : Tracklist)).1 :=
  propose_feasible_and_threshold (fun _ => 7) exMedium2 (some 5) [[exTrack 3]] 1
    (7, [exTrack 3])
    (by norm_num [proposeResults, proposeSorted, proposeFiltered, proposeScored,
      minScoreOk, fits, fitsGo, exTrack, exMedium2])

/-- C5: the sorted result list is ordered by score descending, and entries of
equal score appear exactly in the order the filtered enumeration produced
them (stable tie-break), so the output is deterministic for a fixed
enumeration order. -/
theorem propose_sorted_desc_and_stable (score : Tracklist → Nat) (m : Medium)
    (minScore : Option Nat) (perms : List Tracklist) :
    (proposeSorted score m minScore perms).Pairwise (fun a b => b.1 ≤ a.1) ∧
    ∀ s : Nat,
      (proposeSorted score m minScore perms).filter (fun p => decide (p.1 = s)) =
        (proposeFiltered score m minScore perms).filter (fun p => decide (p.1 = s)) := by
  constructor
  · have h := List.sorted_mergeSort scoreDescLE_trans scoreDescLE_total
      (proposeFiltered score m minScore perms)
    exact h.imp (by
      intro a b hab
      simpa [scoreDescLE] using hab)
  · intro s
    set l := proposeFiltered score m minScore perms with hl
    set p : Nat × Tracklist → Bool := fun q => decide (q.1 = s) with hpdef
    have hsame : ∀ x ∈ l.filter p, x.1 = s := by
      intro x hx
      simpa [hpdef] using (List.mem_filter.mp hx).2
    have hpair : (l.filter p).Pairwise (fun a b => scoreDescLE a b = true) := by
      refine List.pairwise_of_forall_mem_list ?_
      intro a ha b hb
      simp [scoreDescLE, hsame a ha, hsame b hb]
    have hsub : List.Sublist (l.filter p) (l.mergeSort scoreDescLE) :=
      List.sublist_mergeSort scoreDescLE_trans scoreDescLE_total hpair
        (List.filter_sublist l)
    have hidem : (l.filter p).filter p = l.filter p :=
      List.filter_eq_self.mpr fun a ha => (List.mem_filter.mp ha).2
    have hsub2 : List.Sublist (l.filter p) ((l.mergeSort scoreDescLE).filter p) :=
      hidem ▸ hsub.filter p
    have hlen : ((l.mergeSort scoreDescLE).filter p).length = (l.filter p).length :=
      ((List.mergeSort_perm l scoreDescLE).filter p).length_eq
    have hsorted : proposeSorted score m minScore perms = l.mergeSort scoreDescLE := by
      rw [proposeSorted, hl]
    rw [hsorted]
    exact (hsub2.eq_of_length hlen.symm).symm

/-- C6: the pipeline returns at most `count` results — exactly the smaller of
`count` and the number of surviving orderings — and `count = 0` yields the
empty list rather than an error. -/
theorem propose_count_bound (score : Tracklist → Nat) (m : Medium)
    (minScore : Option Nat) (perms : List Tracklist) (count : Nat) :
    (proposeResults score m minScore perms count).length
      = min count (proposeFiltered score m minScore perms).length ∧
    proposeResults score m minScore perms 0 = [] := by
  constructor
  · simp [proposeResults, proposeSorted]
  · simp [proposeResults]

/-! ### Claims about the program context -/

/-- C8: removing a constraint at an out-of-range index returns false and
leaves the context completely unchanged; at an in-range index it returns true
and removes exactly the constraint at that index, with all other constraints
and the other context fields untouched. -/
theorem remove_constraint_spec (ctx : ProgramContext) (index : Nat) :
    (ctx.constraints.length ≤ index →
      handle_remove_constraint ctx index = (false, ctx)) ∧
    (index < ctx.constraints.length →
      (handle_remove_constraint ctx index).1 = true ∧
      (handle_remove_constraint ctx index).2.constraints
        = ctx.constraints.take index ++ ctx.constraints.drop (index + 1) ∧
      (handle_remove_constraint ctx index).2.tracklists = ctx.tracklists ∧
      (handle_remove_constraint ctx index).2.mediums = ctx.mediums) := by
  constructor
  · intro h
    have hnone : ctx.constraints[index]? = none := List.getElem?_eq_none h
    simp [handle_remove_constraint, hnone]
  · intro h
    have hsome : ctx.constraints[index]? = some ctx.constraints[index] :=
      List.getElem?_eq_getElem h
    simp [handle_remove_constraint, hsome, List.eraseIdx_eq_take_drop_succ]

/-- Witness for `remove_constraint_spec` on a two-constraint context. -/
theorem remove_constraint_spec_witness :
    handle_remove_constraint exCtx 2 = (false, exCtx) ∧
    (handle_remove_constraint exCtx 0).2.constraints
      = exCtx.constraints.take 0 ++ exCtx.constraints.drop 1 :=
  ⟨(remove_constraint_spec exCtx 2).1 (by norm_num [exCtx]),
   ((remove_constraint_spec exCtx 0).2 (by norm_num [exCtx])).2.1⟩

/-- C9: name resolution in the context is ASCII-case-insensitive.  The
comparison used everywhere (`eq_ignore_ascii_case`) is exactly equality of
ASCII-lowercased byte sequences; the propose lookups return the first stored
tracklist/medium whose name matches ignoring ASCII case (and none when no
name matches); and the add operations append exactly when no
ASCII-case-insensitively equal name is stored, otherwise replacing the first
such entry in place with every other entry untouched. -/
theorem name_resolution_ascii_case_insensitive (ctx : ProgramContext) (q : Name)
    (tracks : List Track) (nsides : Nat) (maxd : ℚ) :
    (∀ a b : Name, eqIgnoreAsciiCase a b = true ↔
        a.map toAsciiLowercase = b.map toAsciiLowercase) ∧
    (∀ pre x post, ctx.tracklists = pre ++ x :: post →
        (∀ y ∈ pre, y.name.map toAsciiLowercase ≠ q.map toAsciiLowercase) →
        x.name.map toAsciiLowercase = q.map toAsciiLowercase →
        findTracklist ctx q = some x) ∧
    ((∀ x ∈ ctx.tracklists, x.name.map toAsciiLowercase ≠ q.map toAsciiLowercase) →
        findTracklist ctx q = none) ∧
    (∀ pre x post, ctx.mediums = pre ++ x :: post →
        (∀ y ∈ pre, y.name.map toAsciiLowercase ≠ q.map toAsciiLowercase) →
        x.name.map toAsciiLowercase = q.map toAsciiLowercase →
        findMedium ctx q = some x) ∧
    ((∀ x ∈ ctx.mediums, x.name.map toAsciiLowercase ≠ q.map toAsciiLowercase) →
        findMedium ctx q = none) ∧
    ((∀ x ∈ ctx.tracklists, x.name.map toAsciiLowercase ≠ q.map toAsciiLowercase) →
        (add_or_replace_tracklist ctx q tracks).tracklists
          = ctx.tracklists ++ [NamedTracklist.mk q tracks]) ∧
    (∀ pre x post, ctx.tracklists = pre ++ x :: post →
        (∀ y ∈ pre, y.name.map toAsciiLowercase ≠ q.map toAsciiLowercase) →
        x.name.map toAsciiLowercase = q.map toAsciiLowercase →
        (add_or_replace_tracklist ctx q tracks).tracklists
          = pre ++ NamedTracklist.mk q tracks :: post) ∧
    ((∀ x ∈ ctx.mediums, x.name.map toAsciiLowercase ≠ q.map toAsciiLowercase) →
        (add_or_replace_medium ctx q nsides maxd).mediums
          = ctx.mediums ++ [MediumEntry.mk q nsides maxd]) ∧
    (∀ pre x post, ctx.mediums = pre ++ x :: post →
        (∀ y ∈ pre, y.name.map toAsciiLowercase ≠ q.map toAsciiLowercase) →
        x.name.map toAsciiLowercase = q.map toAsciiLowercase →
        (add_or_replace_medium ctx q nsides maxd).mediums
          = pre ++ MediumEntry.mk q nsides maxd :: post) := by
  refine ⟨eqIgnoreAsciiCase_iff, ?_, ?_, ?_, ?_, ?_, ?_, ?_, ?_⟩
  · intro pre x post heq hpre hx
    rw [findTracklist, heq]
    exact find?_first _ pre x post
      (fun y hy => (eqIgnoreAsciiCase_eq_false_iff _ _).mpr (hpre y hy))
      ((eqIgnoreAsciiCase_iff _ _).mpr hx)
  · intro h
    rw [findTracklist]
    refine List.find?_eq_none.mpr fun x hx => ?_
    rw [Bool.not_eq_true, eqIgnoreAsciiCase_eq_false_iff]
    exact h x hx
  · intro pre x post heq hpre hx
    rw [findMedium, heq]
    exact find?_first _ pre x post
      (fun y hy => (eqIgnoreAsciiCase_eq_false_iff _ _).mpr (hpre y hy))
      ((eqIgnoreAsciiCase_iff _ _).mpr hx)
  · intro h
    rw [findMedium]
    refine List.find?_eq_none.mpr fun x hx => ?_
    rw [Bool.not_eq_true, eqIgnoreAsciiCase_eq_false_iff]
    exact h x hx
  · intro h
    show addOrReplaceBy _ _ ctx.tracklists = _
    exact addOrReplaceBy_append _ _ ctx.tracklists
      (fun x hx => (eqIgnoreAsciiCase_eq_false_iff _ _).mpr (h x hx))
  · intro pre x post heq hpre hx
    show addOrReplaceBy _ _ ctx.tracklists = _
    rw [heq]
    exact addOrReplaceBy_replace _ _ pre x post
      (fun y hy => (eqIgnoreAsciiCase_eq_false_iff _ _).mpr (hpre y hy))
      ((eqIgnoreAsciiCase_iff _ _).mpr hx)
  · intro h
    show addOrReplaceBy _ _ ctx.mediums = _
    exact addOrReplaceBy_append _ _ ctx.mediums
      (fun x hx => (eqIgnoreAsciiCase_eq_false_iff _ _).mpr (h x hx))
  · intro pre x post heq hpre hx
    show addOrReplaceBy _ _ ctx.mediums = _
    rw [heq]
    exact addOrReplaceBy_replace _ _ pre x post
      (fun y hy => (eqIgnoreAsciiCase_eq_false_iff _ _).mpr (hpre y hy))
      ((eqIgnoreAsciiCase_iff _ _).mpr hx)

/-- Witness for `name_resolution_ascii_case_insensitive`: querying with "a"
(byte 97) finds and replaces the entries named "A" (byte 65). -/
theorem name_resolution_witness :
    (eqIgnoreAsciiCase [65] [97] = true ↔
      ([65] : Name).map toAsciiLowercase = ([97] : Name).map toAsciiLowercase) ∧
    findTracklist exCtx9 [97] = some exNamed ∧
    findMedium exCtx9 [97] = some exMedEntry ∧
    (add_or_replace_tracklist exCtx9 [97] []).tracklists
      = [] ++ NamedTracklist.mk [97] [] :: [] ∧
    (add_or_replace_medium exCtx9 [97] 3 6).mediums
      = [] ++ MediumEntry.mk [97] 3 6 :: [] := by
  have T := name_resolution_ascii_case_insensitive exCtx9 [97] [] 3 6
  refine ⟨T.1 [65] [97], ?_, ?_, ?_, ?_⟩
  · exact T.2.1 [] exNamed [] (by simp [exCtx9]) (by simp)
      (by simp [exNamed, toAsciiLowercase])
  · exact T.2.2.2.1 [] exMedEntry [] (by simp [exCtx9]) (by simp)
      (by simp [exMedEntry, toAsciiLowercase])
  · exact T.2.2.2.2.2.2.1 [] exNamed [] (by simp [exCtx9]) (by simp)
      (by simp [exNamed, toAsciiLowercase])
  · exact T.2.2.2.2.2.2.2.2 [] exMedEntry [] (by simp [exCtx9]) (by simp)
      (by simp [exMedEntry, toAsciiLowercase])

end AlbumSeq
